import Mathlib

/-!
# Verification of the size-constrained partitioning engine of codefolder2pdf

Shallow embedding of the partitioning logic of `code_collector.py` and
`pdf_splitter.py`:

* the unit-cost estimator and greedy bin packer of `_split_category_files`
  (`code_collector.py`, lines 993–1160);
* the output-file naming and single-part rename logic of the same function
  (lines 1011–1013, 1076–1078, 1141–1152) together with the category naming
  of `_generate_split_pdfs_with_categories` (lines 893–985);
* the budget normalisation of `upload_async` (lines 1436–1446) and the
  split/no-split dispatch of `generate_pdf` (lines 514–522);
* the page-range refiner of `pdf_splitter.split_pdf` (lines 60–132) and the
  command-line entry `pdf_splitter.main` (lines 137–158).

Modelling conventions:

* A content unit (a source file) is represented by its decoded content, a
  `List Char`; the estimator only ever inspects the content's length.
* The Python byte budget `max_size_bytes = max_pdf_size_mb * 1048576` is a
  float; it is embedded as a rational number `ℚ`.  All cost estimates are
  integers, so comparisons of estimates against the budget are preserved
  exactly by the `ℕ → ℚ` coercion.
* Rendering and I/O are external collaborators: the packer model assumes
  every unit's elements are appended successfully (no per-unit error
  paragraphs) and every `doc.build` succeeds, so `current_elements` holds
  exactly the header, the part heading, and one flowable per added file;
  the Python guard `len(current_elements) > len(header_elements) + 1`
  is therefore "the current bin holds at least one unit".
* For the PDF splitter, the measured size of a rendered page range
  `[start, end)` is modelled as the sum of a per-page byte cost
  `cost : ℕ → ℕ` over that range (rendering more pages never makes the
  file smaller); the budget is a number `B` in the same units.
-/

namespace CodeCollector

/-- The floor constant `MIN_FILE_CONTRIBUTION = 30 * 1024`
(`code_collector.py`, line 1027). -/
def MIN_FILE_CONTRIBUTION : ℕ := 30 * 1024

/-- The fixed header seed: `estimated_size = 1 * 1024 * 1024` ("Start with
1MB for headers", `code_collector.py`, lines 1024 and 1087). -/
def headerSeed : ℕ := 1 * 1024 * 1024

/-- Estimated byte contribution of one file with decoded content `content`:
`max(len(content) * 2 + 5000, MIN_FILE_CONTRIBUTION)`
(`code_collector.py`, line 1053). -/
def fileContribution (content : List Char) : ℕ :=
  max (content.length * 2 + 5000) MIN_FILE_CONTRIBUTION

/-- The recorded cost estimate of a bin: the 1 MiB header seed plus the sum
of its units' estimated contributions.  This is the value the running
`estimated_size` variable holds after the bin's units have been added. -/
def binCost (bin : List (List Char)) : ℕ :=
  headerSeed + (bin.map fileContribution).sum

/-- The file-processing loop of `_split_category_files`
(`code_collector.py`, lines 1039–1139), restricted to its packing effect.
`cur` is the list of units already added to the currently open part and
`est` the running `estimated_size`.  For each unit: if
`estimated_size + file_contribution > max_size_bytes` and the current part
already holds at least one unit, the current part is closed and a new one
is opened with `estimated_size` reset to the header seed (lines 1056 and
1087); then the unit is appended and its contribution added (lines 1099
and 1102).  After the loop the final part is closed if it holds at least
one unit (line 1121). -/
def packGo (maxB : ℚ) : List (List Char) → List (List Char) → ℕ →
    List (List (List Char))
  | [], cur, _ => if cur.isEmpty then [] else [cur]
  | u :: rest, cur, est =>
    let c := fileContribution u
    if ((est + c : ℕ) : ℚ) > maxB ∧ ¬ cur.isEmpty then
      cur :: packGo maxB rest [u] (headerSeed + c)
    else
      packGo maxB rest (cur ++ [u]) (est + c)

/-- The greedy bin packer of `_split_category_files`: process the
category's units in order, starting from an empty part with
`estimated_size` seeded at 1 MiB (`code_collector.py`, lines 1024–1139).
Returns the list of closed bins, each an ordered list of units. -/
def splitCategoryFiles (units : List (List Char)) (maxB : ℚ) :
    List (List (List Char)) :=
  packGo maxB units [] headerSeed

theorem fileContribution_ge_min (c : List Char) :
    MIN_FILE_CONTRIBUTION ≤ fileContribution c :=
  le_max_right _ _

theorem headerSeed_le_binCost (bin : List (List Char)) :
    headerSeed ≤ binCost bin :=
  Nat.le_add_right _ _

theorem binCost_nil : binCost [] = headerSeed := by
  simp [binCost]

theorem binCost_append_one (bin : List (List Char)) (u : List Char) :
    binCost (bin ++ [u]) = binCost bin + fileContribution u := by
  simp [binCost, Nat.add_assoc]

theorem binCost_singleton (u : List Char) :
    binCost [u] = headerSeed + fileContribution u := by
  simp [binCost]

/-- Every list of bins emitted by the loop, started from any reachable
state, concatenates back to the current bin followed by the remaining
units. -/
theorem packGo_flatten (maxB : ℚ) :
    ∀ (l cur : List (List Char)) (est : ℕ),
      (packGo maxB l cur est).flatten = cur ++ l := by
  intro l
  induction l with
  | nil =>
    intro cur est
    by_cases h : cur.isEmpty
    · simp [packGo, h, List.isEmpty_iff.mp h]
    · simp [packGo, h]
  | cons u rest ih =>
    intro cur est
    rw [packGo]
    split
    · simp [ih]
    · simp [ih]

/-- Soundness invariant of the packing loop: every emitted bin is nonempty,
and every emitted bin holding more than one unit has recorded cost at most
the budget.  The invariant carried through the loop is that `est` is the
recorded cost of the open bin and that an open multi-unit bin is already
within budget. -/
theorem packGo_bins_sound (maxB : ℚ) :
    ∀ (l cur : List (List Char)) (est : ℕ),
      est = binCost cur →
      (1 < cur.length → (est : ℚ) ≤ maxB) →
      ∀ b ∈ packGo maxB l cur est,
        b ≠ [] ∧ (1 < b.length → ((binCost b : ℕ) : ℚ) ≤ maxB) := by
  intro l
  induction l with
  | nil =>
    intro cur est hest hcur b hb
    rw [packGo] at hb
    by_cases hc : cur.isEmpty
    · simp [hc] at hb
    · rw [if_neg hc] at hb
      have hb' := List.mem_singleton.mp hb
      subst hb'
      exact ⟨List.isEmpty_eq_false.mp (by simpa using hc), fun h1 =>
        hest ▸ hcur h1⟩
  | cons u rest ih =>
    intro cur est hest hcur b hb
    rw [packGo] at hb
    by_cases hsplit :
        ((est + fileContribution u : ℕ) : ℚ) > maxB ∧ ¬ cur.isEmpty
    · rw [if_pos hsplit] at hb
      rcases List.mem_cons.mp hb with hb | hb
      · subst hb
        exact ⟨List.isEmpty_eq_false.mp (by simpa using hsplit.2), fun h1 =>
          hest ▸ hcur h1⟩
      · exact ih [u] (headerSeed + fileContribution u)
          (binCost_singleton u).symm (by simp) b hb
    · rw [if_neg hsplit] at hb
      refine ih (cur ++ [u]) (est + fileContribution u)
        (by rw [hest, binCost_append_one]) ?_ b hb
      intro h1
      rcases not_and_or.mp hsplit with h | h
      · exact le_of_not_lt h
      · exfalso
        have : cur.isEmpty := not_not.mp h
        have : cur = [] := List.isEmpty_iff.mp this
        simp [this] at h1

/-- When the budget is below the header seed plus the minimum per-unit
contribution, the splitting condition fires before every unit after the
first: the loop, once a unit is in the open bin, emits it as a singleton
bin and continues with the next unit alone. -/
theorem packGo_singleton (maxB : ℚ)
    (hB : maxB < ((headerSeed + MIN_FILE_CONTRIBUTION : ℕ) : ℚ)) :
    ∀ (l : List (List Char)) (v : List Char) (est : ℕ),
      headerSeed ≤ est →
      packGo maxB l [v] est = [v] :: l.map (fun u => [u]) := by
  intro l
  induction l with
  | nil =>
    intro v est _
    rw [packGo]
    simp
  | cons u rest ih =>
    intro v est hest
    rw [packGo]
    have hcond : ((est + fileContribution u : ℕ) : ℚ) > maxB := by
      refine lt_of_lt_of_le hB ?_
      exact_mod_cast Nat.add_le_add hest (fileContribution_ge_min u)
    rw [if_pos ⟨hcond, by simp⟩]
    rw [ih u (headerSeed + fileContribution u) (Nat.le_add_right _ _)]
    simp

/-- The packer maps every unit to its own singleton bin whenever the
budget is below the header seed plus the minimum per-unit contribution. -/
theorem splitCategoryFiles_singleton (units : List (List Char)) (maxB : ℚ)
    (h : maxB < ((headerSeed + MIN_FILE_CONTRIBUTION : ℕ) : ℚ)) :
    splitCategoryFiles units maxB = units.map fun u => [u] := by
  cases units with
  | nil => rfl
  | cons u rest =>
    unfold splitCategoryFiles
    rw [packGo]
    split
    · next hcond => simp at hcond
    · next hcond =>
      rw [List.nil_append,
        packGo_singleton maxB h rest u (headerSeed + fileContribution u)
          (Nat.le_add_right _ _)]
      rfl

/-- Monotonicity simulation between a run with budget `B1` and a run with
the larger budget `B2` over the same remaining units.  `d` is the number of
bins the `B1` run has already closed in excess of the `B2` run; when the
two runs have closed equally many bins, the `B2` run's open bin is no more
expensive than the `B1` run's, and is empty whenever the `B1` run's is. -/
theorem packGo_length_mono (B1 B2 : ℚ) (hB : B1 ≤ B2) :
    ∀ (l cur1 cur2 : List (List Char)) (est1 est2 : ℕ) (d : ℕ),
      est1 = binCost cur1 → est2 = binCost cur2 →
      (d = 0 → est2 ≤ est1 ∧ (cur1 = [] → cur2 = [])) →
      (packGo B2 l cur2 est2).length ≤ d + (packGo B1 l cur1 est1).length := by
  intro l
  induction l with
  | nil =>
    intro cur1 cur2 est1 est2 d hest1 hest2 hd
    rw [packGo, packGo]
    by_cases hc2 : cur2.isEmpty
    · simp [hc2]
    · rw [if_neg hc2]
      rcases Nat.eq_zero_or_pos d with hd0 | hdpos
      · subst hd0
        have hc1 : ¬ cur1.isEmpty := by
          intro h
          exact hc2 (by simp [List.isEmpty_iff, (hd rfl).2 (List.isEmpty_iff.mp h)])
        rw [if_neg hc1]
        simp
      · simp only [List.length_singleton]
        omega
  | cons u rest ih =>
    intro cur1 cur2 est1 est2 d hest1 hest2 hd
    rw [packGo, packGo]
    set c := fileContribution u with hc
    by_cases hs2 : ((est2 + c : ℕ) : ℚ) > B2 ∧ ¬ cur2.isEmpty
    · rw [if_pos hs2]
      rcases Nat.eq_zero_or_pos d with hd0 | hdpos
      · subst hd0
        obtain ⟨hle, hemp⟩ := hd rfl
        have hs1 : ((est1 + c : ℕ) : ℚ) > B1 ∧ ¬ cur1.isEmpty := by
          constructor
          · refine lt_of_le_of_lt hB (lt_of_lt_of_le hs2.1 ?_)
            exact_mod_cast Nat.add_le_add_right hle c
          · intro h
            exact hs2.2 (by simp [List.isEmpty_iff,
              hemp (List.isEmpty_iff.mp h)])
        rw [if_pos hs1]
        simp only [List.length_cons, Nat.zero_add]
        have := ih [u] [u] (headerSeed + c) (headerSeed + c) 0
          (binCost_singleton u).symm (binCost_singleton u).symm
          (fun _ => ⟨le_refl _, fun h => h⟩)
        omega
      · by_cases hs1 : ((est1 + c : ℕ) : ℚ) > B1 ∧ ¬ cur1.isEmpty
        · rw [if_pos hs1]
          simp only [List.length_cons]
          have := ih [u] [u] (headerSeed + c) (headerSeed + c) d
            (binCost_singleton u).symm (binCost_singleton u).symm
            (fun _ => ⟨le_refl _, fun h => h⟩)
          omega
        · rw [if_neg hs1]
          obtain ⟨d', rfl⟩ : ∃ d', d = d' + 1 := ⟨d - 1, by omega⟩
          have := ih (cur1 ++ [u]) [u] (est1 + c) (headerSeed + c) d'
            (by rw [hest1, binCost_append_one])
            (binCost_singleton u).symm
            (fun _ => ⟨by
              have : headerSeed ≤ est1 := hest1 ▸ headerSeed_le_binCost cur1
              omega, by simp⟩)
          simp only [List.length_cons]
          omega
    · rw [if_neg hs2]
      by_cases hs1 : ((est1 + c : ℕ) : ℚ) > B1 ∧ ¬ cur1.isEmpty
      · rw [if_pos hs1]
        have := ih [u] (cur2 ++ [u]) (headerSeed + c) (est2 + c) (d + 1)
          (binCost_singleton u).symm
          (by rw [hest2, binCost_append_one])
          (by omega)
        simp only [List.length_cons]
        omega
      · rw [if_neg hs1]
        refine ih (cur1 ++ [u]) (cur2 ++ [u]) (est1 + c) (est2 + c) d
          (by rw [hest1, binCost_append_one])
          (by rw [hest2, binCost_append_one]) ?_
        intro hd0
        obtain ⟨hle, _⟩ := hd hd0
        exact ⟨Nat.add_le_add_right hle c, by simp⟩

end CodeCollector

namespace PdfSplitter

/-- Measured size of the artifact obtained by rendering the page range
`[s, e)` of the input document (`pdf_splitter.py`: writing the candidate
range to the temporary file and calling `get_pdf_size`, lines 74–78).
Modelled as the sum of a per-page byte cost over the range: rendering more
pages never produces a smaller file. -/
def renderedSize (cost : ℕ → ℕ) (s e : ℕ) : ℕ :=
  ((List.range' s (e - s)).map cost).sum

/-- The grow loop of `split_pdf` (`pdf_splitter.py`, lines 82–103): while
the measured size is below the budget and pages remain, extend the end of
the candidate range by 5 (capped at the page count) and re-render.  Returns
the final end page together with the number of re-render steps taken. -/
def growLoop (cost : ℕ → ℕ) (B T s : ℕ) (e : ℕ) : ℕ × ℕ :=
  if h : renderedSize cost s e < B ∧ e < T then
    ((growLoop cost B T s (min (e + 5) T)).1,
     (growLoop cost B T s (min (e + 5) T)).2 + 1)
  else (e, 0)
termination_by T - e
decreasing_by omega

/-- The shrink loop of `split_pdf` (`pdf_splitter.py`, lines 106–121):
while the measured size exceeds the budget and the range still holds more
than 5 pages, retract the end by 5 and re-render.  Returns the final end
page and the number of re-render steps taken. -/
def shrinkLoop (cost : ℕ → ℕ) (B s : ℕ) (e : ℕ) : ℕ × ℕ :=
  if h : B < renderedSize cost s e ∧ s + 5 < e then
    ((shrinkLoop cost B s (e - 5)).1, (shrinkLoop cost B s (e - 5)).2 + 1)
  else (e, 0)
termination_by e
decreasing_by omega

theorem renderedSize_mono (cost : ℕ → ℕ) (s : ℕ) {e e' : ℕ} (h : e ≤ e') :
    renderedSize cost s e ≤ renderedSize cost s e' := by
  unfold renderedSize
  rcases Nat.le_total e s with hes | hes
  · simp [Nat.sub_eq_zero_of_le hes]
  · have h1 : e - s + (e' - e) = e' - s := by omega
    have h2 : s + (e - s) = e := by omega
    calc ((List.range' s (e - s)).map cost).sum
        ≤ ((List.range' s (e - s)).map cost).sum
            + ((List.range' (s + (e - s)) (e' - e)).map cost).sum := by omega
      _ = ((List.range' s (e - s) ++ List.range' (s + (e - s)) (e' - e)).map
            cost).sum := by rw [List.map_append, List.sum_append]
      _ = ((List.range' s ((e' - e) + (e - s))).map cost).sum := by
            rw [List.range'_append_1]
      _ = _ := by rw [Nat.add_comm (e' - e), h1]

theorem growLoop_fst_ge (cost : ℕ → ℕ) (B T s : ℕ) :
    ∀ e, e ≤ (growLoop cost B T s e).1 := by
  intro e
  induction e using growLoop.induct cost B T s with
  | case1 e h ih => rw [growLoop, dif_pos h]; dsimp only; omega
  | case2 e h => rw [growLoop, dif_neg h]

theorem growLoop_fst_le (cost : ℕ → ℕ) (B T s : ℕ) :
    ∀ e, e ≤ T → (growLoop cost B T s e).1 ≤ T := by
  intro e
  induction e using growLoop.induct cost B T s with
  | case1 e h ih => intro _; rw [growLoop, dif_pos h]; exact ih (by omega)
  | case2 e h => intro he; rw [growLoop, dif_neg h]; exact he

theorem growLoop_exit (cost : ℕ → ℕ) (B T s : ℕ) :
    ∀ e, e ≤ T →
      B ≤ renderedSize cost s (growLoop cost B T s e).1 ∨
        (growLoop cost B T s e).1 = T := by
  intro e
  induction e using growLoop.induct cost B T s with
  | case1 e h ih => intro _; rw [growLoop, dif_pos h]; exact ih (by omega)
  | case2 e h =>
    intro he
    rw [growLoop, dif_neg h]
    rcases not_and_or.mp h with h' | h'
    · exact Or.inl (le_of_not_lt h')
    · exact Or.inr (by omega)

theorem growLoop_fst_le_add (cost : ℕ → ℕ) (B T s : ℕ) :
    ∀ e, (growLoop cost B T s e).1 ≤ e + 5 * (growLoop cost B T s e).2 := by
  intro e
  induction e using growLoop.induct cost B T s with
  | case1 e h ih => rw [growLoop, dif_pos h]; dsimp only; omega
  | case2 e h => rw [growLoop, dif_neg h]; dsimp only; omega

theorem growLoop_fst_lower (cost : ℕ → ℕ) (B T s : ℕ) :
    ∀ e, min (e + 5 * (growLoop cost B T s e).2) T ≤ (growLoop cost B T s e).1 := by
  intro e
  induction e using growLoop.induct cost B T s with
  | case1 e h ih => rw [growLoop, dif_pos h]; dsimp only at ih ⊢; omega
  | case2 e h => rw [growLoop, dif_neg h]; dsimp only; omega

theorem growLoop_last (cost : ℕ → ℕ) (B T s : ℕ) :
    ∀ e, 1 ≤ (growLoop cost B T s e).2 → e + 5 * (growLoop cost B T s e).2 < T + 5 := by
  intro e
  induction e using growLoop.induct cost B T s with
  | case1 e h ih =>
    intro _
    rw [growLoop, dif_pos h]
    dsimp only
    by_cases hn : 1 ≤ (growLoop cost B T s (min (e + 5) T)).2
    · have := ih hn
      omega
    · have h0 : (growLoop cost B T s (min (e + 5) T)).2 = 0 := by omega
      rw [h0]
      omega
  | case2 e h =>
    intro h1
    rw [growLoop, dif_neg h] at h1 ⊢
    simp at h1

theorem growLoop_zero (cost : ℕ → ℕ) (B T s : ℕ) :
    ∀ e, (growLoop cost B T s e).2 = 0 → (growLoop cost B T s e).1 = e := by
  intro e
  induction e using growLoop.induct cost B T s with
  | case1 e h ih =>
    rw [growLoop, dif_pos h]
    dsimp only
    omega
  | case2 e h => rw [growLoop, dif_neg h]; intro; rfl

theorem growLoop_lastGood (cost : ℕ → ℕ) (B T s : ℕ) :
    ∀ e, 1 ≤ (growLoop cost B T s e).2 →
      renderedSize cost s ((growLoop cost B T s e).1 - 5) < B := by
  intro e
  induction e using growLoop.induct cost B T s with
  | case1 e h ih =>
    intro _
    rw [growLoop, dif_pos h]
    dsimp only
    by_cases hn : 1 ≤ (growLoop cost B T s (min (e + 5) T)).2
    · exact ih hn
    · have h0 : (growLoop cost B T s (min (e + 5) T)).2 = 0 := by omega
      have h1 := growLoop_zero cost B T s (min (e + 5) T) h0
      rw [h1]
      exact lt_of_le_of_lt (renderedSize_mono cost s (by omega)) h.1
  | case2 e h =>
    intro h1
    rw [growLoop, dif_neg h] at h1 ⊢
    simp at h1

theorem shrinkLoop_fst_gt (cost : ℕ → ℕ) (B s : ℕ) :
    ∀ e, s < e → s < (shrinkLoop cost B s e).1 := by
  intro e
  induction e using shrinkLoop.induct cost B s with
  | case1 e h ih => intro _; rw [shrinkLoop, dif_pos h]; exact ih (by omega)
  | case2 e h => intro he; rw [shrinkLoop, dif_neg h]; exact he

theorem shrinkLoop_fst_le (cost : ℕ → ℕ) (B s : ℕ) :
    ∀ e, (shrinkLoop cost B s e).1 ≤ e := by
  intro e
  induction e using shrinkLoop.induct cost B s with
  | case1 e h ih => rw [shrinkLoop, dif_pos h]; dsimp only; omega
  | case2 e h => rw [shrinkLoop, dif_neg h]

/-- Characterisation of the shrink loop under the invariant established by
the grow loop: either the retracted range (5 pages shorter) is already
within budget, or the range holds at most 10 pages.  In both cases the
shrink loop performs at most one step. -/
theorem shrinkLoop_char (cost : ℕ → ℕ) (B s e : ℕ)
    (hA : renderedSize cost s (e - 5) < B ∨ e ≤ s + 10) :
    shrinkLoop cost B s e = (e, 0) ∨
      (s + 5 < e ∧ B < renderedSize cost s e ∧
        shrinkLoop cost B s e = (e - 5, 1)) := by
  rw [shrinkLoop]
  by_cases h1 : B < renderedSize cost s e ∧ s + 5 < e
  · rw [dif_pos h1]
    refine Or.inr ⟨h1.2, h1.1, ?_⟩
    have hinner : shrinkLoop cost B s (e - 5) = (e - 5, 0) := by
      rw [shrinkLoop]
      rw [dif_neg]
      rcases hA with hA | hA
      · exact fun hc => absurd hc.1 (not_lt_of_ge (le_of_lt hA))
      · exact fun hc => absurd hc.2 (by omega)
    rw [hinner]
  · rw [dif_neg h1]
    exact Or.inl rfl

/-- Final end page of the part starting at page `s`: the initial candidate
range of 10 pages (`pdf_splitter.py`, line 63), grown then shrunk. -/
def partEnd (cost : ℕ → ℕ) (B T s : ℕ) : ℕ :=
  (shrinkLoop cost B s (growLoop cost B T s (min (s + 10) T)).1).1

/-- Number of grow/shrink re-render steps spent on the part starting at
page `s`. -/
def partSteps (cost : ℕ → ℕ) (B T s : ℕ) : ℕ :=
  (growLoop cost B T s (min (s + 10) T)).2 +
    (shrinkLoop cost B s (growLoop cost B T s (min (s + 10) T)).1).2

theorem partEnd_gt (cost : ℕ → ℕ) (B T s : ℕ) (h : s < T) :
    s < partEnd cost B T s := by
  unfold partEnd
  refine shrinkLoop_fst_gt cost B s _ ?_
  have := growLoop_fst_ge cost B T s (min (s + 10) T)
  omega

theorem partEnd_le (cost : ℕ → ℕ) (B T s : ℕ) :
    partEnd cost B T s ≤ T := by
  unfold partEnd
  refine le_trans (shrinkLoop_fst_le cost B s _) ?_
  exact growLoop_fst_le cost B T s _ (by omega)

/-- The outer loop of `split_pdf` (`pdf_splitter.py`, lines 60–132):
starting from page `s`, produce the list of page ranges `[start, end)` of
the successive parts together with the total number of grow/shrink
re-render steps.  Termination of this recursion is the refiner's
termination: every part consumes at least one page. -/
def splitParts (cost : ℕ → ℕ) (B T : ℕ) (s : ℕ) : List (ℕ × ℕ) × ℕ :=
  if h : s < T then
    ((s, partEnd cost B T s) :: (splitParts cost B T (partEnd cost B T s)).1,
     partSteps cost B T s + (splitParts cost B T (partEnd cost B T s)).2)
  else ([], 0)
termination_by T - s
decreasing_by
  have := partEnd_gt cost B T s h
  omega

/-- The parts' page ranges tile the pages `[s, T)` exactly: contiguous,
non-overlapping, no page skipped or duplicated. -/
theorem splitParts_cover (cost : ℕ → ℕ) (B T : ℕ) :
    ∀ s, ((splitParts cost B T s).1.flatMap fun r =>
        List.range' r.1 (r.2 - r.1)) = List.range' s (T - s) := by
  intro s
  induction s using splitParts.induct cost B T with
  | case1 s h ih =>
    rw [splitParts, dif_pos h]
    have hgt := partEnd_gt cost B T s h
    have hle := partEnd_le cost B T s
    rw [List.flatMap_cons, ih]
    have h1 : s + (partEnd cost B T s - s) = partEnd cost B T s := by omega
    calc List.range' s (partEnd cost B T s - s) ++
          List.range' (partEnd cost B T s) (T - partEnd cost B T s)
        = List.range' s (partEnd cost B T s - s) ++
            List.range' (s + (partEnd cost B T s - s))
              (T - partEnd cost B T s) := by rw [h1]
      _ = List.range' s
            ((T - partEnd cost B T s) + (partEnd cost B T s - s)) :=
          List.range'_append_1 _ _ _
      _ = List.range' s (T - s) := by congr 1; omega
  | case2 s h =>
    rw [splitParts, dif_neg h]
    have : T - s = 0 := by omega
    simp [this]

theorem growLoop_at_top (cost : ℕ → ℕ) (B T s : ℕ) :
    growLoop cost B T s T = (T, 0) := by
  rw [growLoop, dif_neg]
  omega

theorem shrinkLoop_stop (cost : ℕ → ℕ) (B s e : ℕ) (h : e ≤ s + 5) :
    shrinkLoop cost B s e = (e, 0) := by
  rw [shrinkLoop, dif_neg]
  omega

/-- A residual part of at most 5 pages is rendered once and accepted with
no grow or shrink step: the initial range already reaches the end of the
document, and the shrink guard `end_page > start_page + 5` fails. -/
theorem splitParts_steps_small (cost : ℕ → ℕ) (B T s : ℕ) (h : T ≤ s + 5) :
    (splitParts cost B T s).2 = 0 := by
  rw [splitParts]
  by_cases hs : s < T
  · rw [dif_pos hs]
    have he1 : min (s + 10) T = T := by omega
    have hsteps : partSteps cost B T s = 0 := by
      unfold partSteps
      rw [he1, growLoop_at_top, shrinkLoop_stop cost B s T (by omega)]
      rfl
    have hend : partEnd cost B T s = T := by
      unfold partEnd
      rw [he1, growLoop_at_top, shrinkLoop_stop cost B s T (by omega)]
    rw [hsteps, hend, splitParts, dif_neg (lt_irrefl T)]
    rfl
  · rw [dif_neg hs]

/-- Global step bound: the refiner spends at most `(T - s) / 5` grow/shrink
re-render steps on the pages `[s, T)`, i.e. one re-render per 5 pages. -/
theorem splitParts_steps_le (cost : ℕ → ℕ) (B T : ℕ) :
    ∀ s, 5 * (splitParts cost B T s).2 ≤ T - s := by
  intro s
  induction s using splitParts.induct cost B T with
  | case1 s h ih =>
    rw [splitParts, dif_pos h]
    dsimp only
    set e1 := min (s + 10) T with he1
    set ge := (growLoop cost B T s e1).1 with hge
    set gn := (growLoop cost B T s e1).2 with hgn
    have hge1 : e1 ≤ ge := growLoop_fst_ge cost B T s e1
    have hgeT : ge ≤ T := growLoop_fst_le cost B T s e1 (by omega)
    have hupper : ge ≤ e1 + 5 * gn := growLoop_fst_le_add cost B T s e1
    have hlower : min (e1 + 5 * gn) T ≤ ge := growLoop_fst_lower cost B T s e1
    have hA : renderedSize cost s (ge - 5) < B ∨ ge ≤ s + 10 := by
      rcases Nat.eq_zero_or_pos gn with h0 | h1
      · exact Or.inr (by have := growLoop_zero cost B T s e1 h0; omega)
      · exact Or.inl (growLoop_lastGood cost B T s e1 h1)
    have hlast : 1 ≤ gn → e1 + 5 * gn < T + 5 := growLoop_last cost B T s e1
    rcases shrinkLoop_char cost B s ge hA with hsh | ⟨hge5, _, hsh⟩
    · -- no shrink step: the part ends at the grow loop's end page
      have hend : partEnd cost B T s = ge := by unfold partEnd; rw [← hge, hsh]
      have hsteps : partSteps cost B T s = gn := by
        unfold partSteps; rw [← hge, ← hgn, hsh]
        simp
      rw [hend] at ih ⊢
      rw [hsteps]
      rcases Nat.eq_zero_or_pos gn with h0 | h1
      · have := growLoop_zero cost B T s e1 h0
        omega
      · have := hlast h1
        omega
    · -- one shrink step: the part ends 5 pages before the grow loop's end
      have hend : partEnd cost B T s = ge - 5 := by unfold partEnd; rw [← hge, hsh]
      have hsteps : partSteps cost B T s = gn + 1 := by
        unfold partSteps; rw [← hge, ← hgn, hsh]
      rw [hend] at ih ⊢
      rw [hsteps]
      by_cases hTf : T ≤ (ge - 5) + 5
      · have h0 := splitParts_steps_small cost B T (ge - 5) hTf
        rw [h0]
        rcases Nat.eq_zero_or_pos gn with hg0 | hg1
        · have := growLoop_zero cost B T s e1 hg0
          omega
        · have := hlast hg1
          omega
      · rcases Nat.eq_zero_or_pos gn with hg0 | hg1
        · have := growLoop_zero cost B T s e1 hg0
          omega
        · have := hlast hg1
          omega
  | case2 s h =>
    rw [splitParts, dif_neg h]
    omega

end PdfSplitter

namespace CodeCollector

/-- One left-to-right scan of Python `str.replace`: at each position, if the
pattern matches there, emit the replacement and skip past the match,
otherwise keep the character and move on.  `fuel` bounds the scan and is
called with the string's length; with a nonempty pattern the scan consumes
at least one character per step, so that much fuel always suffices. -/
def preplaceFuel (p r : List Char) : ℕ → List Char → List Char
  | 0, s => s
  | _ + 1, [] => []
  | fuel + 1, ch :: rest =>
    if p.isPrefixOf (ch :: rest) then
      r ++ preplaceFuel p r fuel (List.drop p.length (ch :: rest))
    else
      ch :: preplaceFuel p r fuel rest

/-- Python `s.replace(p, r)` (for the nonempty patterns used by the code):
replace every non-overlapping occurrence of `p` in `s` by `r`, scanning
left to right. -/
def pythonReplace (s p r : List Char) : List Char :=
  preplaceFuel p r s.length s

/-- The part suffix `'_part{k}.pdf'` used in the generated output names. -/
def partSuffix (k : ℕ) : List Char :=
  "_part".toList ++ Nat.toDigits 10 k ++ ".pdf".toList

/-- Generated name of part `k` of a category:
`base_output.replace('.pdf', f'_part{k}.pdf')`
(`code_collector.py`, lines 1013 and 1078). -/
def partFileName (base : List Char) (k : ℕ) : List Char :=
  pythonReplace base (".pdf".toList) (partSuffix k)

/-- Final artifact names produced by `_split_category_files` for a category
that ended with `numParts` parts: part `k` is written to
`partFileName base k`, and when exactly one part was created and its name
contains `'_part1.pdf'`, it is renamed back to `base_output`
(`code_collector.py`, lines 1141–1152). -/
def splitCategoryOutputNames (base : List Char) (numParts : ℕ) :
    List (List Char) :=
  if numParts = 1 ∧ partSuffix 1 <:+: partFileName base 1 then [base]
  else (List.range numParts).map fun i => partFileName base (i + 1)

/-- Per-category artifact names of `_generate_split_pdfs_with_categories`
(`code_collector.py`, lines 896–985, with `machine_format = False`): a
category with no files is skipped, otherwise its files are packed and the
parts are named from the category-suffixed base `stem ++ catTag ++ ext`. -/
def categorySplitNames (stem ext catTag : List Char)
    (files : List (List Char)) (maxBytes : ℚ) : List (List Char) :=
  if files.isEmpty then []
  else splitCategoryOutputNames (stem ++ catTag ++ ext)
    (splitCategoryFiles files maxBytes).length

/-- All artifact names of `_generate_split_pdfs_with_categories` for a
requested output `stem ++ ext`: the regular, iOS and Android categories in
that order, each with its own suffixed base name (`code_collector.py`,
lines 893, 901, 931, 961). -/
def generateSplitWithCategoriesNames (stem ext : List Char)
    (reg ios andr : List (List Char)) (maxMb : ℚ) : List (List Char) :=
  categorySplitNames stem ext ("_regular".toList) reg (maxMb * 1048576) ++
    categorySplitNames stem ext ("_ios".toList) ios (maxMb * 1048576) ++
      categorySplitNames stem ext ("_android".toList) andr (maxMb * 1048576)

/-- Budget normalisation of the job-submission surface `upload_async`
(`code_collector.py`, lines 1436–1446): with the split checkbox on, a
parsed form value `v ≤ 0` (the form default is `'0'`) and an unparseable
value (`none`) are both replaced by the default `0.39` MB; with the
checkbox off the budget is likewise set to `0.39` MB ("Always split at
390KB"). -/
def uploadMaxPdfSizeMb (splitOn : Bool) (formValue : Option ℚ) : ℚ :=
  if splitOn then
    match formValue with
    | some v => if v ≤ 0 then 39 / 100 else v
    | none => 39 / 100
  else 39 / 100

/-- Number of artifacts produced by `generate_pdf` (`code_collector.py`,
lines 514–522): an absent or non-positive `max_pdf_size_mb` takes the
non-splitting path `generate_single_document`, which writes exactly one
artifact at `output_path`; otherwise the categorized splitting path
produces one artifact per bin per nonempty category
(`_generate_split_pdfs_with_categories`, lines 873–991). -/
def generatePdfArtifactCount : Option ℚ → List (List Char) →
    List (List Char) → List (List Char) → ℕ
  | none, _, _, _ => 1
  | some v, reg, ios, andr =>
    if v ≤ 0 then 1
    else
      (if reg.isEmpty then 0
        else (splitCategoryFiles reg (v * 1048576)).length) +
      (if ios.isEmpty then 0
        else (splitCategoryFiles ios (v * 1048576)).length) +
      (if andr.isEmpty then 0
        else (splitCategoryFiles andr (v * 1048576)).length)

theorem preplaceFuel_of_not_infix (p r : List Char) (hp : p ≠ []) :
    ∀ (fuel : ℕ) (s : List Char), ¬ p <:+: s → preplaceFuel p r fuel s = s := by
  intro fuel
  induction fuel with
  | zero => intro s _; rfl
  | succ fuel ih =>
    intro s hs
    match s with
    | [] => rfl
    | ch :: rest =>
      rw [preplaceFuel]
      have hpre : ¬ p.isPrefixOf (ch :: rest) := by
        intro hc
        exact hs (List.IsPrefix.isInfix (by simpa using hc))
      rw [if_neg hpre]
      rw [ih rest (fun hc => hs (List.infix_cons hc))]

theorem preplaceFuel_infix_of_infix (p r : List Char) (hp : p ≠ []) :
    ∀ (fuel : ℕ) (s : List Char), s.length ≤ fuel → p <:+: s →
      r <:+: preplaceFuel p r fuel s := by
  intro fuel
  induction fuel with
  | zero =>
    intro s hlen hs
    have : s = [] := List.length_eq_zero.mp (by omega)
    subst this
    exact absurd (List.infix_nil.mp hs) hp
  | succ fuel ih =>
    intro s hlen hs
    match s with
    | [] => exact absurd (List.infix_nil.mp hs) hp
    | ch :: rest =>
      rw [preplaceFuel]
      by_cases hpre : p.isPrefixOf (ch :: rest)
      · rw [if_pos hpre]
        exact List.IsPrefix.isInfix (List.prefix_append r _)
      · rw [if_neg hpre]
        have hrest : p <:+: rest := by
          rcases List.infix_cons_iff.mp hs with hc | hc
          · exact absurd (by simpa using hc) hpre
          · exact hc
        have := ih rest (by simp at hlen; omega) hrest
        exact List.infix_cons this

theorem pythonReplace_of_not_infix (s p r : List Char) (hp : p ≠ [])
    (h : ¬ p <:+: s) : pythonReplace s p r = s :=
  preplaceFuel_of_not_infix p r hp s.length s h

theorem pythonReplace_infix (s p r : List Char) (hp : p ≠ [])
    (h : p <:+: s) : r <:+: pythonReplace s p r :=
  preplaceFuel_infix_of_infix p r hp s.length s (le_refl _) h

end CodeCollector

namespace PdfSplitter

/-- Output file list of `split_pdf` (`pdf_splitter.py`, lines 37–39 and
123–126): an absent input yields no parts at all; otherwise each produced
part `i` is renamed from the temporary file to
`f"{output_prefix}_part{i}.pdf"`. -/
def splitPdfOutputs (inputExists : Bool) (cost : ℕ → ℕ) (B T : ℕ)
    (pre : List Char) : List (List Char) :=
  if inputExists then
    (List.range (splitParts cost B T 0).1.length).map fun i =>
      pre ++ "_part".toList ++ Nat.toDigits 10 (i + 1) ++ ".pdf".toList
  else []

/-- Process exit status of the command-line entry `main`
(`pdf_splitter.py`, lines 137–158): `main` runs `split_pdf`, prints a
summary and returns; `sys.exit` is never called, so the interpreter always
terminates with status 0. -/
def mainExitCode (inputExists : Bool) (cost : ℕ → ℕ) (B T : ℕ)
    (pre : List Char) : ℕ :=
  0

/-- Whether `main` prints the success summary (`"Split complete! ..."`,
lines 149–153) rather than the failure message (line 155): it does exactly
when `split_pdf` returned at least one output file. -/
def mainPrintsSuccess (inputExists : Bool) (cost : ℕ → ℕ) (B T : ℕ)
    (pre : List Char) : Bool :=
  !(splitPdfOutputs inputExists cost B T pre).isEmpty

end PdfSplitter

open CodeCollector PdfSplitter

/-- C1: for every unit list and every positive budget, every bin produced
by the greedy packer that contains more than one unit has a recorded cost
estimate — the fixed 1 MiB header seed plus the sum of its units'
estimated contributions — that does not exceed the budget; every produced
bin is nonempty, so a bin that exceeds the budget holds exactly one unit
and is emitted as-is rather than subdivided. -/
theorem c1_budget_respect (units : List (List Char)) (maxB : ℚ)
    (hpos : 0 < maxB) :
    ∀ b ∈ splitCategoryFiles units maxB,
      b ≠ [] ∧ (1 < b.length → ((binCost b : ℕ) : ℚ) ≤ maxB) :=
  packGo_bins_sound maxB units [] headerSeed binCost_nil.symm
    (fun h => absurd h (by norm_num))

theorem c1_witness :
    (0 : ℚ) < 10000000 ∧
      ∀ b ∈ splitCategoryFiles [[], []] 10000000,
        b ≠ [] ∧ (1 < b.length → ((binCost b : ℕ) : ℚ) ≤ 10000000) :=
  ⟨by norm_num, c1_budget_respect [[], []] 10000000 (by norm_num)⟩

/-- C2: for every non-empty unit list and every budget, the concatenation
of the units of all bins produced by the greedy packer, in bin order,
equals the input list exactly — same units, same order, nothing skipped,
duplicated or reordered. -/
theorem c2_coverage (units : List (List Char)) (maxB : ℚ)
    (h : units ≠ []) :
    (splitCategoryFiles units maxB).flatten = units := by
  have := packGo_flatten maxB units [] headerSeed
  simpa [splitCategoryFiles] using this

theorem c2_witness :
    ([['a'], ['b']] : List (List Char)) ≠ [] ∧
      (splitCategoryFiles [['a'], ['b']] 1).flatten = [['a'], ['b']] :=
  ⟨by decide, c2_coverage [['a'], ['b']] 1 (by decide)⟩

/-- C6: the cost estimate of a content-bearing unit is a deterministic
pure function of the content's length only: at least 2 bytes per character
of source text plus the fixed 5000-byte per-unit overhead, never below the
fixed floor `MIN_FILE_CONTRIBUTION`, and equal to one of those two bounds;
contents of equal length always receive the same estimate. -/
theorem c6_estimator (c : List Char) :
    c.length * 2 + 5000 ≤ fileContribution c ∧
    MIN_FILE_CONTRIBUTION ≤ fileContribution c ∧
    (fileContribution c = c.length * 2 + 5000 ∨
      fileContribution c = MIN_FILE_CONTRIBUTION) ∧
    ∀ c' : List Char, c'.length = c.length →
      fileContribution c' = fileContribution c := by
  refine ⟨le_max_left _ _, le_max_right _ _, max_choice _ _, ?_⟩
  intro c' hlen
  unfold fileContribution
  rw [hlen]

theorem c6_witness :
    (['b'] : List Char).length = (['a'] : List Char).length ∧
      fileContribution ['b'] = fileContribution ['a'] :=
  ⟨by decide, (c6_estimator ['a']).2.2.2 ['b'] (by decide)⟩

/-- C8: for every unit list and positive budgets `B1 ≤ B2`, all else equal,
the greedy packer produces at least as many bins under `B1` as under `B2`:
increasing the budget never increases the number of bins. -/
theorem c8_budget_monotone (units : List (List Char)) (B1 B2 : ℚ)
    (h1 : 0 < B1) (h2 : B1 ≤ B2) :
    (splitCategoryFiles units B2).length ≤
      (splitCategoryFiles units B1).length := by
  have := packGo_length_mono B1 B2 h2 units [] [] headerSeed headerSeed 0
    binCost_nil.symm binCost_nil.symm (fun _ => ⟨le_refl _, fun _ => rfl⟩)
  simpa [splitCategoryFiles] using this

theorem c8_witness :
    (0 : ℚ) < 1 ∧ (1 : ℚ) ≤ 2 ∧
      (splitCategoryFiles [[], []] 2).length ≤
        (splitCategoryFiles [[], []] 1).length :=
  ⟨by norm_num, by norm_num,
    c8_budget_monotone [[], []] 1 2 (by norm_num) (by norm_num)⟩

/-- C10: whenever the byte budget is smaller than the packer's fixed 1 MiB
header seed plus the 30 KiB minimum per-unit contribution, the splitting
condition fires before every unit after the first, so every produced bin
contains exactly one unit: the packer maps each unit to its own singleton
bin. -/
theorem c10_singleton_bins (units : List (List Char)) (maxB : ℚ)
    (h : maxB < ((headerSeed + MIN_FILE_CONTRIBUTION : ℕ) : ℚ)) :
    splitCategoryFiles units maxB = units.map fun u => [u] :=
  splitCategoryFiles_singleton units maxB h

theorem c10_witness :
    (39 / 100 * 1048576 : ℚ) < ((headerSeed + MIN_FILE_CONTRIBUTION : ℕ) : ℚ) ∧
      splitCategoryFiles [['a'], []] (39 / 100 * 1048576) =
        [['a'], []].map fun u => [u] :=
  ⟨by norm_num [headerSeed, MIN_FILE_CONTRIBUTION],
    c10_singleton_bins [['a'], []] (39 / 100 * 1048576)
      (by norm_num [headerSeed, MIN_FILE_CONTRIBUTION])⟩

/-- C3 (amended): whenever a splitter invocation produces exactly one part,
the rename step of `_split_category_files` restores that invocation's
requested base name: the single artifact is named exactly `base`, with no
part suffix.  (The requested name at the categorized pipeline level carries
a category suffix; see the counterexample.) -/
theorem c3_single_part_rename (base : List Char) :
    splitCategoryOutputNames base 1 = [base] := by
  by_cases hinf : (".pdf".toList) <:+: base
  · have hr : partSuffix 1 <:+: partFileName base 1 :=
      pythonReplace_infix base (".pdf".toList) (partSuffix 1)
        (by decide) hinf
    unfold splitCategoryOutputNames
    rw [if_pos ⟨rfl, hr⟩]
  · have heq : partFileName base 1 = base :=
      pythonReplace_of_not_infix base (".pdf".toList) (partSuffix 1)
        (by decide) hinf
    have hneg : ¬ (1 = 1 ∧ partSuffix 1 <:+: partFileName base 1) := by
      rintro ⟨-, hcon⟩
      rw [heq] at hcon
      exact hinf (List.IsInfix.trans
        (by decide : (".pdf".toList) <:+: partSuffix 1) hcon)
    unfold splitCategoryOutputNames
    rw [if_neg hneg]
    have hmap : (List.range 1).map (fun i => partFileName base (i + 1)) =
        [partFileName base 1] := by rfl
    rw [hmap, heq]

/-- C3 (counterexample): a project with a single regular file that fits in
one bin produces exactly one artifact overall, yet its final name is the
category-suffixed `out_regular.pdf`, not the originally requested
`out.pdf`: the claim as stated fails on the categorized pipeline. -/
theorem c3_counterexample :
    (generateSplitWithCategoriesNames ("out".toList) (".pdf".toList)
        [[]] [] [] (39 / 100)).length = 1 ∧
      generateSplitWithCategoriesNames ("out".toList) (".pdf".toList)
          [[]] [] [] (39 / 100) ≠ ["out.pdf".toList] := by
  have hpack : splitCategoryFiles [[]] ((39 : ℚ) / 100 * 1048576) = [[[]]] := by
    rw [splitCategoryFiles_singleton [[]] ((39 : ℚ) / 100 * 1048576)
      (by norm_num [headerSeed, MIN_FILE_CONTRIBUTION])]
    rfl
  constructor
  · simp only [generateSplitWithCategoriesNames, categorySplitNames, hpack]
    decide
  · simp only [generateSplitWithCategoriesNames, categorySplitNames, hpack]
    decide

/-- C4: for every document of `P ≥ 1` pages and every budget, the range
refiner terminates (the recursion `splitParts` is well founded), the number
of grow/shrink re-render steps is at most `P` divided by the 5-page
increment, and the produced parts' page ranges are contiguous, pairwise
non-overlapping, and cover all `P` pages exactly once. -/
theorem c4_refiner_convergence (cost : ℕ → ℕ) (B T : ℕ) (hT : 0 < T) :
    ((splitParts cost B T 0).1.flatMap fun r =>
        List.range' r.1 (r.2 - r.1)) = List.range' 0 T ∧
      (splitParts cost B T 0).2 ≤ T / 5 := by
  constructor
  · simpa using splitParts_cover cost B T 0
  · have := splitParts_steps_le cost B T 0
    omega

theorem c4_witness :
    0 < 5 ∧
      (((splitParts (fun _ => 0) 0 5 0).1.flatMap fun r =>
          List.range' r.1 (r.2 - r.1)) = List.range' 0 5 ∧
        (splitParts (fun _ => 0) 0 5 0).2 ≤ 5 / 5) :=
  ⟨by norm_num, c4_refiner_convergence (fun _ => 0) 0 5 (by norm_num)⟩

/-- C5 (counterexample): with a 5-page document whose every page renders to
11 bytes and a budget of 10 bytes, every page alone exceeds the budget, yet
the refiner emits the single part `[0, 5)` holding all five pages: an
oversized page is not emitted alone in a one-page part, because the shrink
guard `end_page > start_page + 5` fails on the 5-page range and leaves all
five pages together. -/
theorem c5_counterexample :
    ¬ (∀ p : ℕ, p < 5 → 10 < (fun _ : ℕ => 11) p →
        (p, p + 1) ∈ (splitParts (fun _ : ℕ => 11) 10 5 0).1) := by
  have hg : growLoop (fun _ : ℕ => 11) 10 5 0 5 = (5, 0) := by
    rw [growLoop]
    simp
  have hs : shrinkLoop (fun _ : ℕ => 11) 10 0 5 = (5, 0) := by
    rw [shrinkLoop]
    simp
  have hrest : splitParts (fun _ : ℕ => 11) 10 5 5 = ([], 0) := by
    rw [splitParts]
    simp
  have hmin : min (0 + 10) 5 = 5 := by norm_num
  have hend : partEnd (fun _ : ℕ => 11) 10 5 0 = 5 := by
    unfold partEnd
    rw [hmin, hg]
    simp [hs]
  intro hcl
  have hmem := hcl 0 (by norm_num) (by norm_num)
  rw [splitParts, dif_pos (by norm_num : (0 : ℕ) < 5), hend, hrest] at hmem
  simp at hmem

/-- C5 (amended): a page whose rendered size alone exceeds the budget is
never dropped: every page of the document appears in some produced part.
It is not in general emitted alone, however — the shrink loop stops once a
part is within 5 pages of its start, so an oversized page can share its
part with up to four neighbouring pages. -/
theorem c5_page_never_dropped (cost : ℕ → ℕ) (B T p : ℕ) (hp : p < T) :
    ∃ r ∈ (splitParts cost B T 0).1, r.1 ≤ p ∧ p < r.2 := by
  have hc := splitParts_cover cost B T 0
  have hmem : p ∈ List.range' 0 (T - 0) :=
    List.mem_range'.mpr ⟨p, by omega, by omega⟩
  rw [← hc] at hmem
  obtain ⟨r, hr, hpr⟩ := List.mem_flatMap.mp hmem
  refine ⟨r, hr, ?_⟩
  obtain ⟨i, hi, hpi⟩ := List.mem_range'.mp hpr
  omega

theorem c5_witness :
    0 < 1 ∧ ∃ r ∈ (splitParts (fun _ => 2) 1 1 0).1, r.1 ≤ 0 ∧ 0 < r.2 :=
  ⟨by norm_num, c5_page_never_dropped (fun _ => 2) 1 1 0 (by norm_num)⟩

/-- C7 (counterexample): a caller who submits a budget of `0` through the
job-submission surface does not get an unsplit artifact: `upload_async`
replaces the non-positive value with the default `0.39` MB, and a job with
two regular files then produces two artifacts, not one. -/
theorem c7_counterexample :
    uploadMaxPdfSizeMb true (some 0) = 39 / 100 ∧
      generatePdfArtifactCount (some (uploadMaxPdfSizeMb true (some 0)))
        [[], []] [] [] = 2 := by
  have hu : uploadMaxPdfSizeMb true (some 0) = 39 / 100 := by
    norm_num [uploadMaxPdfSizeMb]
  refine ⟨hu, ?_⟩
  rw [hu]
  have hpack : splitCategoryFiles [[], []] ((39 : ℚ) / 100 * 1048576) =
      [[[]], [[]]] := by
    rw [splitCategoryFiles_singleton [[], []] ((39 : ℚ) / 100 * 1048576)
      (by norm_num [headerSeed, MIN_FILE_CONTRIBUTION])]
    rfl
  rw [generatePdfArtifactCount]
  rw [if_neg (by norm_num : ¬ ((39 : ℚ) / 100 ≤ 0)), hpack]
  rfl

/-- C7 (amended): the PDF-generation layer honours the claim — an absent,
zero or negative budget skips the splitting condition entirely and exactly
one artifact is produced — but the job-submission surface never passes such
a budget through: every budget it forwards is positive (absent, zero,
negative and unparseable form values all become the 0.39 MB default), so
submitted jobs always run the splitting path. -/
theorem c7_no_split_path (maxMb : Option ℚ)
    (reg ios andr : List (List Char)) (splitOn : Bool) (fv : Option ℚ)
    (h : maxMb = none ∨ ∃ v, maxMb = some v ∧ v ≤ 0) :
    generatePdfArtifactCount maxMb reg ios andr = 1 ∧
      0 < uploadMaxPdfSizeMb splitOn fv := by
  constructor
  · rcases h with h | ⟨v, rfl, hv⟩
    · subst h; rfl
    · rw [generatePdfArtifactCount]
      rw [if_pos hv]
  · rcases fv with _ | v
    · by_cases hs : splitOn <;> simp [uploadMaxPdfSizeMb, hs]
    · by_cases hs : splitOn
      · simp only [uploadMaxPdfSizeMb, if_pos hs]
        by_cases hv : v ≤ 0
        · rw [if_pos hv]; norm_num
        · rw [if_neg hv]; exact lt_of_not_le hv
      · simp only [uploadMaxPdfSizeMb, if_neg hs]
        norm_num

theorem c7_witness :
    ((some (0 : ℚ) = none ∨ ∃ v, some (0 : ℚ) = some v ∧ v ≤ 0) ∧
      (generatePdfArtifactCount (some 0) [[]] [] [] = 1 ∧
        0 < uploadMaxPdfSizeMb false none)) :=
  ⟨Or.inr ⟨0, rfl, le_refl 0⟩,
    c7_no_split_path (some 0) [[]] [] [] false none
      (Or.inr ⟨0, rfl, le_refl 0⟩)⟩

/-- C9 (counterexample): with a missing input document the splitter
produces no output part, yet the command-line entry still terminates with
exit status 0: the exit status is not an "if and only if" reflection of
whether at least one part was produced. -/
theorem c9_counterexample :
    ¬ ((mainExitCode false (fun _ => 0) 0 1 [] = 0) ↔
        splitPdfOutputs false (fun _ => 0) 0 1 [] ≠ []) := by
  intro h
  exact (h.mp rfl) rfl

/-- C9 (amended): the command-line entry always terminates with exit
status 0; whether at least one part was produced is reflected only in the
printed summary, which announces success exactly when the splitter
returned at least one output file. -/
theorem c9_exit_always_zero (inputExists : Bool) (cost : ℕ → ℕ) (B T : ℕ)
    (pre : List Char) :
    mainExitCode inputExists cost B T pre = 0 ∧
      (mainPrintsSuccess inputExists cost B T pre = true ↔
        splitPdfOutputs inputExists cost B T pre ≠ []) := by
  refine ⟨rfl, ?_⟩
  unfold mainPrintsSuccess
  simp
